import Mathlib

/- Verification development for the juju settings store and its companions.

   The repository fragments under verification are:
   - the versioned settings store of package state, exercised by
     state/settings_test.go (the implementation file state/settings.go is not
     among the sources, so its operations are modelled from spec.md and held
     to the behaviour the test file pins down);
   - bestVersion from the api facade version table (src/unnamed/part_000);
   - the add-generation command Run method (src/cmd/juju/model/addgeneration.go).

   Machine values stored in settings documents are modelled by the inductive
   type Value below; maps are association lists from String keys to Value. -/

namespace JujuState

/-- Modelled from the spec: the universe of payload values of a settings
document (null, bool, integer, string, ordered sequence, nested mapping).
Floating point values are omitted; no claim depends on them. -/
inductive Value where
  | null : Value
  | bool : Bool → Value
  | int : Int → Value
  | str : String → Value
  | list : List Value → Value
  | vmap : List (String × Value) → Value
deriving Repr

mutual

/-- Structural deep equality test on values, written by hand so that it
reduces inside the kernel (the derived instance for a nested inductive
would not). -/
def Value.beq : Value → Value → Bool
  | .null, .null => true
  | .bool a, .bool b => a == b
  | .int a, .int b => a == b
  | .str a, .str b => a == b
  | .list a, .list b => Value.beqList a b
  | .vmap a, .vmap b => Value.beqMap a b
  | _, _ => false

/-- Deep equality on value sequences. -/
def Value.beqList : List Value → List Value → Bool
  | [], [] => true
  | x :: xs, y :: ys => Value.beq x y && Value.beqList xs ys
  | _, _ => false

/-- Deep equality on nested mappings. -/
def Value.beqMap : List (String × Value) → List (String × Value) → Bool
  | [], [] => true
  | (k1, x) :: xs, (k2, y) :: ys => k1 == k2 && Value.beq x y && Value.beqMap xs ys
  | _, _ => false

end

mutual

theorem Value.beq_refl : ∀ a : Value, Value.beq a a = true
  | .null => rfl
  | .bool a => by simp [Value.beq]
  | .int a => by simp [Value.beq]
  | .str a => by simp [Value.beq]
  | .list a => by simp [Value.beq, Value.beqList_refl a]
  | .vmap a => by simp [Value.beq, Value.beqMap_refl a]

theorem Value.beqList_refl : ∀ l : List Value, Value.beqList l l = true
  | [] => rfl
  | x :: xs => by simp [Value.beqList, Value.beq_refl x, Value.beqList_refl xs]

theorem Value.beqMap_refl : ∀ l : List (String × Value), Value.beqMap l l = true
  | [] => rfl
  | (k, x) :: xs => by simp [Value.beqMap, Value.beq_refl x, Value.beqMap_refl xs]

end

mutual

theorem Value.beq_sound : ∀ a b : Value, Value.beq a b = true → a = b
  | .null, .null, _ => rfl
  | .bool a, .bool b, h => by simp [Value.beq] at h; simp [h]
  | .int a, .int b, h => by simp [Value.beq] at h; simp [h]
  | .str a, .str b, h => by simp [Value.beq] at h; simp [h]
  | .list a, .list b, h => by
      simp only [Value.beq] at h
      simp [Value.beqList_sound a b h]
  | .vmap a, .vmap b, h => by
      simp only [Value.beq] at h
      simp [Value.beqMap_sound a b h]
  | .null, .bool _, h => by simp [Value.beq] at h
  | .null, .int _, h => by simp [Value.beq] at h
  | .null, .str _, h => by simp [Value.beq] at h
  | .null, .list _, h => by simp [Value.beq] at h
  | .null, .vmap _, h => by simp [Value.beq] at h
  | .bool _, .null, h => by simp [Value.beq] at h
  | .bool _, .int _, h => by simp [Value.beq] at h
  | .bool _, .str _, h => by simp [Value.beq] at h
  | .bool _, .list _, h => by simp [Value.beq] at h
  | .bool _, .vmap _, h => by simp [Value.beq] at h
  | .int _, .null, h => by simp [Value.beq] at h
  | .int _, .bool _, h => by simp [Value.beq] at h
  | .int _, .str _, h => by simp [Value.beq] at h
  | .int _, .list _, h => by simp [Value.beq] at h
  | .int _, .vmap _, h => by simp [Value.beq] at h
  | .str _, .null, h => by simp [Value.beq] at h
  | .str _, .bool _, h => by simp [Value.beq] at h
  | .str _, .int _, h => by simp [Value.beq] at h
  | .str _, .list _, h => by simp [Value.beq] at h
  | .str _, .vmap _, h => by simp [Value.beq] at h
  | .list _, .null, h => by simp [Value.beq] at h
  | .list _, .bool _, h => by simp [Value.beq] at h
  | .list _, .int _, h => by simp [Value.beq] at h
  | .list _, .str _, h => by simp [Value.beq] at h
  | .list _, .vmap _, h => by simp [Value.beq] at h
  | .vmap _, .null, h => by simp [Value.beq] at h
  | .vmap _, .bool _, h => by simp [Value.beq] at h
  | .vmap _, .int _, h => by simp [Value.beq] at h
  | .vmap _, .str _, h => by simp [Value.beq] at h
  | .vmap _, .list _, h => by simp [Value.beq] at h

theorem Value.beqList_sound : ∀ a b : List Value, Value.beqList a b = true → a = b
  | [], [], _ => rfl
  | x :: xs, y :: ys, h => by
      simp only [Value.beqList, Bool.and_eq_true] at h
      simp [Value.beq_sound x y h.1, Value.beqList_sound xs ys h.2]
  | [], _ :: _, h => by simp [Value.beqList] at h
  | _ :: _, [], h => by simp [Value.beqList] at h

theorem Value.beqMap_sound : ∀ a b : List (String × Value), Value.beqMap a b = true → a = b
  | [], [], _ => rfl
  | (k1, x) :: xs, (k2, y) :: ys, h => by
      simp only [Value.beqMap, Bool.and_eq_true] at h
      obtain ⟨⟨hk, hv⟩, hrest⟩ := h
      simp [eq_of_beq hk, Value.beq_sound x y hv, Value.beqMap_sound xs ys hrest]
  | [], _ :: _, h => by simp [Value.beqMap] at h
  | _ :: _, [], h => by simp [Value.beqMap] at h

end

instance : DecidableEq Value := fun a b =>
  if h : Value.beq a b = true then .isTrue (Value.beq_sound a b h)
  else .isFalse (fun he => h (he ▸ Value.beq_refl a))

/-- Lexicographic order test on lists of characters, compared by code point.
Written by hand because the core String order does not reduce in the kernel. -/
def strListLt : List Char → List Char → Bool
  | [], [] => false
  | [], _ :: _ => true
  | _ :: _, [] => false
  | a :: as, b :: bs =>
      if a.toNat < b.toNat then true
      else if b.toNat < a.toNat then false
      else strListLt as bs

/-- Lexicographic order test on strings (the order used by sort.Strings in Go,
byte order coinciding with code point order on the keys in play). -/
def strLt (a b : String) : Bool := strListLt a.data b.data

/-- Prefix test on lists of characters, mirroring strings.HasPrefix. -/
def listPrefixOf : List Char → List Char → Bool
  | [], _ => true
  | _ :: _, [] => false
  | a :: as, b :: bs => a == b && listPrefixOf as bs

/-- Lookup in an association list keyed by strings (first match wins, the
semantics of a Go map holding at most one entry per key). -/
def aget {α : Type} : List (String × α) → String → Option α
  | [], _ => none
  | (k2, v) :: rest, k => if k = k2 then some v else aget rest k

/-- Ordered insert or replace in an association list, keeping keys sorted by
strLt so that a map has one canonical representation. -/
def aset {α : Type} : List (String × α) → String → α → List (String × α)
  | [], k, v => [(k, v)]
  | (k2, v2) :: rest, k, v =>
      if strLt k k2 then (k, v) :: (k2, v2) :: rest
      else if k = k2 then (k, v) :: rest
      else (k2, v2) :: aset rest k v

/-- Remove every entry with the given key from an association list. -/
def adel {α : Type} (l : List (String × α)) (k : String) : List (String × α) :=
  l.filter (fun p => p.1 != k)

/-- Modelled from the spec: the key escape map of state/settings.go, replacing
the full stop and the dollar sign by their fullwidth lookalikes. -/
def escapeChar (c : Char) : Char :=
  if c = '.' then '．' else if c = '$' then '＄' else c

/-- Modelled from the spec: the inverse key map, applied unconditionally. -/
def unescapeChar (c : Char) : Char :=
  if c = '．' then '.' else if c = '＄' then '$' else c

/-- Modelled from the spec: key encoding at the storage boundary. -/
def encodeKey (s : String) : String := ⟨s.data.map escapeChar⟩

/-- Modelled from the spec: key decoding at the deserialization boundary. -/
def decodeKey (s : String) : String := ⟨s.data.map unescapeChar⟩

/-- Modelled from the spec: escape every top level key of a payload;
values, including nested mappings and their keys, are untouched. -/
def escapeMap (m : List (String × Value)) : List (String × Value) :=
  m.map (fun p => (encodeKey p.1, p.2))

/-- Modelled from the spec: decode every top level key of a stored payload. -/
def unescapeMap (m : List (String × Value)) : List (String × Value) :=
  m.map (fun p => (decodeKey p.1, p.2))

/-- Modelled from the spec: the kind field of an ItemChange record. -/
inductive ChangeType where
  | added : ChangeType
  | modified : ChangeType
  | deleted : ChangeType
deriving DecidableEq, Repr

/-- Modelled from the spec: one entry of the change list returned by Write,
with none standing for the nil old value of an addition and the nil new
value of a deletion. -/
structure ItemChange where
  ctype : ChangeType
  key : String
  oldValue : Option Value
  newValue : Option Value
deriving DecidableEq, Repr

/-- Sorted duplicate free insert of a key into a key list. -/
def insertKey (k : String) : List String → List String
  | [] => [k]
  | k2 :: rest =>
      if strLt k k2 then k :: k2 :: rest
      else if k = k2 then k2 :: rest
      else k2 :: insertKey k rest

/-- Sort a key list ascending and drop duplicates. -/
def sortedKeys (l : List String) : List String := l.foldr insertKey []

/-- Modelled from the spec: the change emitted for one key given the before
and after views, with deep value equality deciding the modified case. -/
def changeFor (before after : List (String × Value)) (k : String) : Option ItemChange :=
  match aget before k, aget after k with
  | none, none => none
  | none, some n => some ⟨.added, k, none, some n⟩
  | some o, none => some ⟨.deleted, k, some o, none⟩
  | some o, some n => if o = n then none else some ⟨.modified, k, some o, some n⟩

/-- Modelled from the spec: the change list of a flush, one entry per
differing key, sorted ascending by key. -/
def settingsDiff (before after : List (String × Value)) : List ItemChange :=
  (sortedKeys (before.map Prod.fst ++ after.map Prod.fst)).filterMap (changeFor before after)

/-- Modelled from the spec: the error kinds surfaced by the settings store. -/
inductive SErr where
  | notFound : String → SErr
  | alreadyExists : String → SErr
  | conflict : String → SErr
deriving DecidableEq, Repr

/-- Classifier mirroring errors.IsNotFound of the juju errors package. -/
def SErr.isNotFound : SErr → Bool
  | .notFound _ => true
  | _ => false

/-- Modelled from the spec: a persisted settings document, holding the version
counter, the revision token maintained by the storage engine, and the payload
under escaped keys. -/
structure SettingsDoc where
  version : Int
  txnRevno : Nat
  payload : List (String × Value)
deriving DecidableEq, Repr

/-- The settings collection: documents indexed by their id. -/
abbrev Coll := List (String × SettingsDoc)

/-- Modelled from the spec: the in memory settings node, holding the key, the
last observed disk snapshot, the editable core snapshot, and the last observed
revision token. -/
structure Settings where
  key : String
  disk : List (String × Value)
  core : List (String × Value)
  txnRevno : Nat
deriving DecidableEq, Repr

/-- Modelled from the spec: createSettings inserts a fresh document with the
escaped payload and refuses to overwrite an existing key. The returned node
has disk and core equal to the supplied values. -/
def createSettings (st : Coll) (key : String) (values : List (String × Value)) :
    Except SErr (Settings × Coll) :=
  if (aget st key).isSome then .error (.alreadyExists "cannot overwrite existing settings")
  else
    .ok ({ key := key, disk := values, core := values, txnRevno := 0 },
         aset st key ⟨0, 0, escapeMap values⟩)

/-- Modelled from the spec: readSettings fetches the document, decodes the
payload keys, and returns a node with disk and core both set to the decoded
payload; a missing document surfaces a NotFound error. -/
def readSettings (st : Coll) (key : String) : Except SErr Settings :=
  match aget st key with
  | none => .error (.notFound "settings not found")
  | some doc =>
      let p := unescapeMap doc.payload
      .ok { key := key, disk := p, core := p, txnRevno := doc.txnRevno }

/-- Modelled from the spec: removeSettings deletes the document by id. -/
def removeSettings (st : Coll) (key : String) : Coll := adel st key

/-- Local edit: Set stores a value in core only. -/
def Settings.set (c : Settings) (k : String) (v : Value) : Settings :=
  { c with core := aset c.core k v }

/-- Local edit: Delete removes a key from core only. -/
def Settings.delete (c : Settings) (k : String) : Settings :=
  { c with core := adel c.core k }

/-- Local edit: Update stores every entry of the argument map in core. -/
def Settings.update (c : Settings) (m : List (String × Value)) : Settings :=
  { c with core := m.foldl (fun acc p => aset acc p.1 p.2) c.core }

/-- Get returns the core value of a key, none when absent. -/
def Settings.get (c : Settings) (k : String) : Option Value := aget c.core k

/-- Map returns the current core view (a copy in Go; values are pure here). -/
def Settings.Map (c : Settings) : List (String × Value) := c.core

/-- Keys returns the sorted key list of core. -/
def Settings.keys (c : Settings) : List String := sortedKeys (c.core.map Prod.fst)

/-- Modelled from the spec: Read refetches the document by the node key and
unconditionally replaces disk, core and the revision token with the fetched
state, discarding local edits. -/
def Settings.read (c : Settings) (st : Coll) : Except SErr Settings :=
  match aget st c.key with
  | none => .error (.notFound "settings not found")
  | some doc =>
      let p := unescapeMap doc.payload
      .ok { c with disk := p, core := p, txnRevno := doc.txnRevno }

/-- Modelled from the spec: Write diffs core against disk; an empty diff
returns the empty change list with no storage interaction. Otherwise the
transaction asserts only that the document exists, as TestConflictOnSet and
TestCannotWriteMissing in state/settings_test.go pin down, applies the set
and unset operations of the diff under escaped keys to the current stored
payload, bumps the version and revision, and installs core as the new disk. -/
def Settings.write (c : Settings) (st : Coll) :
    Except SErr (List ItemChange × Settings × Coll) :=
  let changes := settingsDiff c.disk c.core
  if changes.isEmpty then .ok ([], c, st)
  else
    match aget st c.key with
    | none => .error (.notFound "settings not found")
    | some doc =>
        let afterUnset := changes.foldl (fun p ch =>
          match ch.ctype with
          | .deleted => adel p (encodeKey ch.key)
          | _ => p) doc.payload
        let newPayload := changes.foldl (fun p ch =>
          match ch.ctype, ch.newValue with
          | .deleted, _ => p
          | _, some v => aset p (encodeKey ch.key) v
          | _, none => p) afterUnset
        .ok (changes,
             { c with disk := c.core, txnRevno := doc.txnRevno + 1 },
             aset st c.key ⟨doc.version + 1, doc.txnRevno + 1, newPayload⟩)

/-- Modelled from the spec: listSettings returns every document whose id
begins with the given prefix string, ids verbatim, payload keys decoded. -/
def listSettings (st : Coll) (pfx : String) : List (String × List (String × Value)) :=
  st.filterMap (fun p =>
    if listPrefixOf pfx.data p.1.data then some (p.1, unescapeMap p.2.payload) else none)

/-- The version field of the stored document for a key, none when absent. -/
def versionAt (st : Coll) (key : String) : Option Int := (aget st key).map (·.version)

/-- A local edit applied to a node between flushes. -/
inductive Edit where
  | set : String → Value → Edit
  | del : String → Edit
  | upd : List (String × Value) → Edit

/-- Apply one local edit to a node. -/
def applyEdit (c : Settings) : Edit → Settings
  | .set k v => c.set k v
  | .del k => c.delete k
  | .upd m => c.update m

/-- Apply a sequence of local edits to a node. -/
def applyEdits (c : Settings) (es : List Edit) : Settings := es.foldl applyEdit c

/-- Modelled from the spec: marshalling a settingsMap escapes the top level
keys, so the raw stored form carries the escaped keys. -/
def settingsMapMarshal (m : List (String × Value)) : List (String × Value) := escapeMap m

/-- Raw unmarshalling into an ordinary map performs no custom decoding. -/
def rawUnmarshal (stored : List (String × Value)) : List (String × Value) := stored

/-- Modelled from the spec: unmarshalling into a settingsMap decodes the keys
through the custom SetBSON hook. -/
def settingsMapUnmarshal (stored : List (String × Value)) : List (String × Value) :=
  unescapeMap stored

/-- Success test on an Except value. -/
def exceptOk {ε α : Type} : Except ε α → Bool
  | .ok _ => true
  | .error _ => false

/-- The change list of a successful write, none on error. -/
def writeChanges (r : Except SErr (List ItemChange × Settings × Coll)) :
    Option (List ItemChange) :=
  match r with
  | .ok (chs, _, _) => some chs
  | .error _ => none

/-- The core view of a successfully returned node, none on error. -/
def nodeCore (r : Except SErr Settings) : Option (List (String × Value)) :=
  match r with
  | .ok n => some n.core
  | .error _ => none

/-- Fallback node used to keep scenario plumbing total. -/
def noNode : Settings := ⟨"", [], [], 0⟩

/-- Scenario of TestMultipleWritesAreStable: fresh store, create at key
config. -/
def c1Start : Settings × Coll :=
  match createSettings [] "config" [] with
  | .ok p => p
  | .error _ => (noNode, [])

/-- Scenario: the first real write installing foo and this. -/
def c1First : Settings × Coll :=
  let n := c1Start.1.update [("foo", .str "bar"), ("this", .str "that")]
  match n.write c1Start.2 with
  | .ok (_, n2, st2) => (n2, st2)
  | .error _ => (n, c1Start.2)

/-- Scenario: one no-op-equivalent cycle of the stability test. -/
def c1Cycle (p : Settings × Coll) (i : Nat) : Settings × Coll :=
  let n := (((p.1.set "value" (.int i)).set "foo" (.str "bar")).delete "value").set
    "this" (.str "that")
  match n.write p.2 with
  | .ok (_, n2, st2) => (n2, st2)
  | .error _ => (n, p.2)

/-- Scenario: state after one hundred no-op-equivalent write cycles. -/
def c1Final : Settings × Coll := (List.range 100).foldl c1Cycle c1First

/-- Scenario of TestConflictOnSet: the shared option map. -/
def c2Opts : List (String × Value) := [("alpha", .str "beta"), ("one", .int 1)]

/-- Scenario: fresh store, create at key config giving node one. -/
def c2Start : Settings × Coll :=
  match createSettings [] "config" [] with
  | .ok p => p
  | .error _ => (noNode, [])

/-- Scenario: node two reads the same document and observes the same
revision token as node one. -/
def c2NodeTwo : Settings :=
  match readSettings c2Start.2 "config" with
  | .ok n => n
  | .error _ => noNode

/-- Scenario: node one updates and writes first. -/
def c2Write1 : Except SErr (List ItemChange × Settings × Coll) :=
  (c2Start.1.update c2Opts).write c2Start.2

/-- Scenario: the store state after the first write. -/
def c2St2 : Coll :=
  match c2Write1 with
  | .ok (_, _, st) => st
  | .error _ => []

/-- Scenario: node two, still holding the old revision token, updates and
writes second. -/
def c2Write2 : Except SErr (List ItemChange × Settings × Coll) :=
  (c2NodeTwo.update c2Opts).write c2St2

/-- Scenario of TestSetItemEscape: create then set two keys holding the
reserved characters. -/
def c3Start : Settings × Coll :=
  match createSettings [] "config" [] with
  | .ok p => p
  | .error _ => (noNode, [])

/-- Scenario: write the two escaped keys. -/
def c3Write : Except SErr (List ItemChange × Settings × Coll) :=
  ((c3Start.1.set "foo.alpha" (.str "beta")).set "$bar" (.int 1)).write c3Start.2

/-- Scenario: store state holding the escaped payload. -/
def c3St : Coll :=
  match c3Write with
  | .ok (_, _, st) => st
  | .error _ => []

/-- Scenario of write-after-remove with no pending local change. -/
def c6Start : Settings × Coll :=
  match createSettings [] "config" [] with
  | .ok p => p
  | .error _ => (noNode, [])

/-- Scenario: the document is removed underneath the node. -/
def c6Removed : Coll := removeSettings c6Start.2 "config"

/-- Store used by the list-by-prefix witness, holding ids with two distinct
prefixes as in TestList. -/
def c8St : Coll :=
  [("another#1", ⟨0, 0, [("foo2", .str "bar2")]⟩),
   ("key#1", ⟨0, 0, [("foo1", .str "bar1")]⟩)]

end JujuState

namespace JujuApi

/-- bestVersion from src/unnamed/part_000: fold over the version list keeping
the largest version that does not exceed the desired one, starting from 0. -/
def bestVersion (desiredVersion : Int) (versions : List Int) : Int :=
  versions.foldl
    (fun best version => if version ≤ desiredVersion ∧ version > best then version else best) 0

end JujuApi

namespace JujuCmd

/-- Outcome of opening the API connection or of the facade call, as surfaced
to addGenerationCommand. -/
inductive ApiError where
  | failure : String → ApiError
deriving DecidableEq, Repr

/-- The model generation client: the only observable of AddGeneration is the
error value it returns, some error or none. -/
structure GenClient where
  addGenerationResult : Option ApiError
deriving DecidableEq, Repr

/-- What a Run invocation produces: the bytes written to stdout and the error
value returned to the caller. -/
structure RunResult where
  stdout : String
  returned : Option ApiError
deriving DecidableEq, Repr

/-- Run from src/cmd/juju/model/addgeneration.go: if getAPI fails the error is
returned; otherwise the AddGeneration facade call is issued and its error
value discarded, the fixed message is written to stdout, and nil is
returned. -/
def addGenerationRun (api : Except ApiError GenClient) : RunResult :=
  match api with
  | .error e => { stdout := "", returned := some e }
  | .ok client =>
      let _ := client.addGenerationResult
      { stdout := "target generation set to next\n", returned := none }

end JujuCmd

namespace JujuState

theorem string_ext {s t : String} (h : s.data = t.data) : s = t := by
  cases s; cases t; simp_all

theorem char_toNat_inj {a b : Char} (h : a.toNat = b.toNat) : a = b :=
  Char.eq_of_val_eq (UInt32.toNat.inj h)

theorem strListLt_irrefl : ∀ l : List Char, strListLt l l = false
  | [] => rfl
  | a :: as => by simp [strListLt, strListLt_irrefl as]

theorem strListLt_trans : ∀ (a b c : List Char),
    strListLt a b = true → strListLt b c = true → strListLt a c = true
  | [], [], _, h1, _ => by simp [strListLt] at h1
  | [], _ :: _, [], _, h2 => by simp [strListLt] at h2
  | [], _ :: _, _ :: _, _, _ => rfl
  | _ :: _, [], _, h1, _ => by simp [strListLt] at h1
  | _ :: _, _ :: _, [], _, h2 => by simp [strListLt] at h2
  | a :: as, b :: bs, c :: cs, h1, h2 => by
      simp only [strListLt] at h1 h2 ⊢
      by_cases hab : a.toNat < b.toNat
      · by_cases hbc : b.toNat < c.toNat
        · simp [Nat.lt_trans hab hbc]
        · by_cases hcb : c.toNat < b.toNat
          · rw [if_neg hbc, if_pos hcb] at h2; simp at h2
          · have hbc2 : b.toNat = c.toNat :=
              Nat.le_antisymm (Nat.not_lt.mp hcb) (Nat.not_lt.mp hbc)
            simp [hbc2 ▸ hab]
      · by_cases hba : b.toNat < a.toNat
        · rw [if_neg hab, if_pos hba] at h1; simp at h1
        · have hab2 : a.toNat = b.toNat :=
            Nat.le_antisymm (Nat.not_lt.mp hba) (Nat.not_lt.mp hab)
          rw [if_neg hab, if_neg hba] at h1
          by_cases hbc : b.toNat < c.toNat
          · simp [hab2 ▸ hbc]
          · by_cases hcb : c.toNat < b.toNat
            · rw [if_neg hbc, if_pos hcb] at h2; simp at h2
            · have hbc2 : b.toNat = c.toNat :=
                Nat.le_antisymm (Nat.not_lt.mp hcb) (Nat.not_lt.mp hbc)
              rw [if_neg hbc, if_neg hcb] at h2
              have hac1 : ¬ a.toNat < c.toNat := by
                rw [hab2, hbc2]; exact Nat.lt_irrefl _
              have hac2 : ¬ c.toNat < a.toNat := by
                rw [hab2, hbc2]; exact Nat.lt_irrefl _
              rw [if_neg hac1, if_neg hac2]
              exact strListLt_trans as bs cs h1 h2

theorem strListLt_eq_of_not : ∀ (a b : List Char),
    strListLt a b = false → strListLt b a = false → a = b
  | [], [], _, _ => rfl
  | [], _ :: _, h1, _ => by simp [strListLt] at h1
  | _ :: _, [], _, h2 => by simp [strListLt] at h2
  | a :: as, b :: bs, h1, h2 => by
      simp only [strListLt] at h1 h2
      by_cases hab : a.toNat < b.toNat
      · rw [if_pos hab] at h1; simp at h1
      · by_cases hba : b.toNat < a.toNat
        · rw [if_pos hba] at h2; simp at h2
        · have heq : a = b :=
            char_toNat_inj (Nat.le_antisymm (Nat.not_lt.mp hba) (Nat.not_lt.mp hab))
          rw [if_neg hab, if_neg hba] at h1
          rw [if_neg hba, if_neg hab] at h2
          rw [heq, strListLt_eq_of_not as bs h1 h2]

theorem strLt_trans {a b c : String} (h1 : strLt a b = true) (h2 : strLt b c = true) :
    strLt a c = true :=
  strListLt_trans a.data b.data c.data h1 h2

theorem strLt_total_ne {a b : String} (h1 : strLt a b = false) (hne : a ≠ b) :
    strLt b a = true := by
  cases hba : strLt b a
  · exact absurd (string_ext (strListLt_eq_of_not a.data b.data h1 hba)) hne
  · rfl

theorem mem_insertKey {x k : String} : ∀ {l : List String},
    x ∈ insertKey k l ↔ x = k ∨ x ∈ l
  | [] => by simp [insertKey]
  | k2 :: rest => by
      simp only [insertKey]
      by_cases h1 : strLt k k2 = true
      · simp [h1, List.mem_cons]
      · rw [if_neg h1]
        by_cases h2 : k = k2
        · subst h2; simp [List.mem_cons]
        · rw [if_neg h2]
          simp only [List.mem_cons, mem_insertKey (l := rest)]
          tauto

theorem pairwise_insertKey {k : String} : ∀ {l : List String},
    l.Pairwise (fun a b => strLt a b = true) →
    (insertKey k l).Pairwise (fun a b => strLt a b = true)
  | [], _ => by simp [insertKey]
  | k2 :: rest, h => by
      obtain ⟨hk2, hrest⟩ := List.pairwise_cons.mp h
      simp only [insertKey]
      by_cases h1 : strLt k k2 = true
      · rw [if_pos h1]
        refine List.pairwise_cons.mpr ⟨?_, h⟩
        intro x hx
        rcases List.mem_cons.mp hx with hx2 | hx3
        · rw [hx2]; exact h1
        · exact strLt_trans h1 (hk2 x hx3)
      · rw [if_neg h1]
        by_cases h2 : k = k2
        · rw [if_pos h2]; exact h
        · rw [if_neg h2]
          refine List.pairwise_cons.mpr ⟨?_, pairwise_insertKey hrest⟩
          intro x hx
          rcases mem_insertKey.mp hx with hx2 | hx3
          · rw [hx2]
            exact strLt_total_ne (Bool.not_eq_true _ ▸ h1) h2
          · exact hk2 x hx3

theorem pairwise_sortedKeys : ∀ l : List String,
    (sortedKeys l).Pairwise (fun a b => strLt a b = true)
  | [] => List.Pairwise.nil
  | _ :: xs => pairwise_insertKey (pairwise_sortedKeys xs)

theorem mem_sortedKeys {x : String} : ∀ {l : List String}, x ∈ sortedKeys l ↔ x ∈ l
  | [] => Iff.rfl
  | y :: ys => by
      rw [show sortedKeys (y :: ys) = insertKey y (sortedKeys ys) from rfl, mem_insertKey,
        mem_sortedKeys (l := ys)]
      simp [List.mem_cons]

theorem aget_eq_none {α : Type} : ∀ {l : List (String × α)} {k : String},
    k ∉ l.map Prod.fst → aget l k = none
  | [], _, _ => rfl
  | (k2, v) :: rest, k, h => by
      simp only [List.map_cons, List.mem_cons, not_or] at h
      simp only [aget, if_neg h.1]
      exact aget_eq_none h.2

theorem mem_fst_of_aget {α : Type} : ∀ {l : List (String × α)} {k : String} {v : α},
    aget l k = some v → k ∈ l.map Prod.fst
  | [], k, v, h => by simp [aget] at h
  | (k2, v2) :: rest, k, v, h => by
      by_cases hk : k = k2
      · simp [hk]
      · simp only [aget, if_neg hk] at h
        simp [mem_fst_of_aget h]

theorem changeFor_eq_none {b a : List (String × Value)} {k : String}
    (h : aget b k = aget a k) : changeFor b a k = none := by
  unfold changeFor
  rw [h]
  cases aget a k <;> simp

theorem changeFor_none_imp {b a : List (String × Value)} {k : String}
    (h : changeFor b a k = none) : aget b k = aget a k := by
  cases hb : aget b k <;> cases ha : aget a k
  · rfl
  · simp [changeFor, hb, ha] at h
  · simp [changeFor, hb, ha] at h
  · rename_i o n
    by_cases hon : o = n
    · rw [hon]
    · simp [changeFor, hb, ha, hon] at h

theorem changeFor_key {b a : List (String × Value)} {k : String} {ch : ItemChange}
    (h : changeFor b a k = some ch) : ch.key = k := by
  cases hb : aget b k <;> cases ha : aget a k
  · simp [changeFor, hb, ha] at h
  · simp only [changeFor, hb, ha, Option.some.injEq] at h
    subst h; rfl
  · simp only [changeFor, hb, ha, Option.some.injEq] at h
    subst h; rfl
  · rename_i o n
    by_cases hon : o = n
    · simp [changeFor, hb, ha, hon] at h
    · simp only [changeFor, hb, ha, hon, if_false, Option.some.injEq, ite_false] at h
      subst h; rfl

theorem settingsDiff_nil_iff {b a : List (String × Value)} :
    settingsDiff b a = [] ↔ ∀ k, aget b k = aget a k := by
  unfold settingsDiff
  rw [List.filterMap_eq_nil_iff]
  constructor
  · intro h k
    by_cases hk : k ∈ sortedKeys (b.map Prod.fst ++ a.map Prod.fst)
    · exact changeFor_none_imp (h k hk)
    · rw [mem_sortedKeys, List.mem_append, not_or] at hk
      rw [aget_eq_none hk.1, aget_eq_none hk.2]
  · intro h k _
    exact changeFor_eq_none (h k)

theorem mem_settingsDiff {b a : List (String × Value)} {ch : ItemChange} :
    ch ∈ settingsDiff b a ↔ changeFor b a ch.key = some ch := by
  unfold settingsDiff
  rw [List.mem_filterMap]
  constructor
  · rintro ⟨k, _, hsome⟩
    rw [changeFor_key hsome]
    exact hsome
  · intro h
    refine ⟨ch.key, ?_, h⟩
    rw [mem_sortedKeys, List.mem_append]
    unfold changeFor at h
    cases hb : aget b ch.key <;> cases ha : aget a ch.key <;> rw [hb, ha] at h
    · simp at h
    · exact Or.inr (mem_fst_of_aget ha)
    · exact Or.inl (mem_fst_of_aget hb)
    · exact Or.inl (mem_fst_of_aget hb)

theorem pairwise_settingsDiff (b a : List (String × Value)) :
    (settingsDiff b a).Pairwise (fun x y => strLt x.key y.key = true) := by
  unfold settingsDiff
  refine List.pairwise_filterMap.mpr (List.Pairwise.imp ?_ (pairwise_sortedKeys _))
  intro k1 k2 hlt x hx y hy
  rw [Option.mem_def] at hx hy
  rw [changeFor_key hx, changeFor_key hy]
  exact hlt

theorem write_of_pointwise {c : Settings} {st : Coll}
    (h : ∀ k, aget c.disk k = aget c.core k) : c.write st = .ok ([], c, st) := by
  unfold Settings.write
  have hdiff : settingsDiff c.disk c.core = [] := settingsDiff_nil_iff.mpr h
  simp [hdiff]

theorem write_ok_core_eq_disk {c : Settings} {st : Coll}
    {r : List ItemChange × Settings × Coll} (h : c.write st = .ok r) :
    ∀ k, aget r.2.1.core k = aget r.2.1.disk k := by
  by_cases hemp : (settingsDiff c.disk c.core).isEmpty = true
  · simp only [Settings.write, hemp, if_true] at h
    cases h
    intro k
    exact (settingsDiff_nil_iff.mp (List.isEmpty_iff.mp hemp) k).symm
  · cases hag : aget st c.key
    · simp [Settings.write, hemp, hag] at h
    · simp only [Settings.write, hemp, hag, if_false] at h
      cases h
      intro k
      rfl

theorem applyEdit_key (c : Settings) (e : Edit) : (applyEdit c e).key = c.key := by
  cases e <;> rfl

theorem applyEdits_key : ∀ (es : List Edit) (c : Settings), (applyEdits c es).key = c.key
  | [], _ => rfl
  | e :: es, c => by
      rw [show applyEdits c (e :: es) = applyEdits (applyEdit c e) es from rfl,
        applyEdits_key es, applyEdit_key]

end JujuState

namespace JujuApi

/-- Accumulator form of bestVersion, for the fold invariant. -/
def bestFold (d b : Int) (vs : List Int) : Int :=
  vs.foldl (fun best version => if version ≤ d ∧ version > best then version else best) b

theorem bestFold_spec (d : Int) : ∀ (vs : List Int) (b : Int),
    (bestFold d b vs = b ∨ (bestFold d b vs ∈ vs ∧ bestFold d b vs ≤ d))
    ∧ b ≤ bestFold d b vs
    ∧ ∀ v ∈ vs, v ≤ d → v ≤ bestFold d b vs
  | [], b => ⟨Or.inl rfl, le_refl b, by simp⟩
  | v :: vs, b => by
      obtain ⟨ih1, ih2, ih3⟩ := bestFold_spec d vs (if v ≤ d ∧ v > b then v else b)
      rw [show bestFold d b (v :: vs) = bestFold d (if v ≤ d ∧ v > b then v else b) vs from rfl]
      by_cases hc : v ≤ d ∧ v > b
      · rw [if_pos hc] at ih1 ih2 ih3 ⊢
        refine ⟨?_, le_trans (le_of_lt hc.2) ih2, ?_⟩
        · rcases ih1 with h | h
          · right
            rw [h]
            exact ⟨List.mem_cons_self v vs, hc.1⟩
          · exact Or.inr ⟨List.mem_cons_of_mem v h.1, h.2⟩
        · intro w hw hwd
          rcases List.mem_cons.mp hw with hwv | hw2
          · rw [hwv]; exact ih2
          · exact ih3 w hw2 hwd
      · rw [if_neg hc] at ih1 ih2 ih3 ⊢
        refine ⟨?_, ih2, ?_⟩
        · rcases ih1 with h | h
          · exact Or.inl h
          · exact Or.inr ⟨List.mem_cons_of_mem v h.1, h.2⟩
        · intro w hw hwd
          rcases List.mem_cons.mp hw with hwv | hw2
          · have hnb : ¬ v > b := fun hgt => hc ⟨hwv ▸ hwd, hgt⟩
            rw [hwv]
            exact le_trans (not_lt.mp hnb) ih2
          · exact ih3 w hw2 hwd

/-- C9: bestVersion returns the maximum element of the versions list that is
positive and at most the desired version, returning 0 when there is no such
element; the result never exceeds max desired 0 and is always an element of
the list or 0. -/
theorem bestVersion_spec (d : Int) (vs : List Int) :
    (bestVersion d vs ∈ vs ∨ bestVersion d vs = 0)
    ∧ bestVersion d vs ≤ max d 0
    ∧ (∀ v ∈ vs, 0 < v → v ≤ d → v ≤ bestVersion d vs)
    ∧ ((∀ v ∈ vs, ¬(0 < v ∧ v ≤ d)) → bestVersion d vs = 0)
    ∧ (∀ v ∈ vs, 0 < v → v ≤ d →
        bestVersion d vs ∈ vs ∧ 0 < bestVersion d vs ∧ bestVersion d vs ≤ d) := by
  obtain ⟨h1, h2, h3⟩ := bestFold_spec d vs 0
  have hbv : bestVersion d vs = bestFold d 0 vs := rfl
  rw [hbv]
  refine ⟨?_, ?_, ?_, ?_, ?_⟩
  · rcases h1 with h | h
    · exact Or.inr h
    · exact Or.inl h.1
  · rcases h1 with h | h
    · rw [h]; exact le_max_right d 0
    · exact le_trans h.2 (le_max_left d 0)
  · intro v hv _ hvd
    exact h3 v hv hvd
  · intro hnone
    rcases h1 with h | h
    · exact h
    · by_contra hne
      have hpos : 0 < bestFold d 0 vs := lt_of_le_of_ne h2 (Ne.symm hne)
      exact hnone _ h.1 ⟨hpos, h.2⟩
  · intro v hv hv0 hvd
    have hvr : v ≤ bestFold d 0 vs := h3 v hv hvd
    have hpos : 0 < bestFold d 0 vs := lt_of_lt_of_le hv0 hvr
    rcases h1 with h | h
    · rw [h] at hpos; exact absurd hpos (lt_irrefl 0)
    · exact ⟨h.1, hpos, h.2⟩

/-- Witness for C9 at desired version 2 and list [1, 3, 2]. -/
theorem bestVersion_spec_witness :
    bestVersion 2 [1, 3, 2] ∈ [1, 3, 2] ∧ 0 < bestVersion 2 [1, 3, 2]
    ∧ bestVersion 2 [1, 3, 2] ≤ 2 :=
  (bestVersion_spec 2 [1, 3, 2]).2.2.2.2 1 (by decide) (by decide) (by decide)

end JujuApi

namespace JujuCmd

/-- C10: whenever the API connection opens, Run writes the fixed message to
stdout and returns nil, whatever error value the AddGeneration facade call
produced; that error is discarded. -/
theorem addGenerationRun_discards_facade_error (r : Option ApiError) :
    addGenerationRun (.ok ⟨r⟩) =
      { stdout := "target generation set to next\n", returned := none } := rfl

/-- Witness for C10 with a failing facade call. -/
theorem addGenerationRun_discards_facade_error_witness :
    addGenerationRun (.ok ⟨some (.failure "facade failed")⟩) =
      { stdout := "target generation set to next\n", returned := none } :=
  addGenerationRun_discards_facade_error (some (.failure "facade failed"))

end JujuCmd

namespace JujuState

/-- C5: immediately after every successful read (free function or method) or
Write, the core and disk views of the returned node agree pointwise under
deep value equality. -/
theorem core_eq_disk_after_read_write :
    (∀ (st : Coll) (key : String) (n : Settings), readSettings st key = .ok n →
       ∀ k, aget n.core k = aget n.disk k)
    ∧ (∀ (c : Settings) (st : Coll) (n : Settings), c.read st = .ok n →
       ∀ k, aget n.core k = aget n.disk k)
    ∧ (∀ (c : Settings) (st : Coll) (r : List ItemChange × Settings × Coll),
       c.write st = .ok r → ∀ k, aget r.2.1.core k = aget r.2.1.disk k) := by
  refine ⟨?_, ?_, fun c st r h => write_ok_core_eq_disk h⟩
  · intro st key n h k
    cases hag : aget st key
    · simp [readSettings, hag] at h
    · simp only [readSettings, hag] at h
      cases h
      rfl
  · intro c st n h k
    cases hag : aget st c.key
    · simp [Settings.read, hag] at h
    · simp only [Settings.read, hag] at h
      cases h
      rfl

/-- Witness for C5 on a concrete successful read. -/
theorem core_eq_disk_after_read_write_witness :
    aget (⟨"k", [], [], 0⟩ : Settings).core "x" = aget (⟨"k", [], [], 0⟩ : Settings).disk "x" :=
  core_eq_disk_after_read_write.1 [("k", ⟨0, 0, []⟩)] "k" ⟨"k", [], [], 0⟩ rfl "x"

set_option maxRecDepth 400000 in
/-- C1: a Write whose pending view agrees pointwise with the disk view
returns the empty change list, leaves the node untouched and performs no
storage mutation; concretely, after create and one hundred no-op-equivalent
write cycles of TestMultipleWritesAreStable the stored version still equals
its value after the first real write. -/
theorem noop_write_stable :
    (∀ (c : Settings) (st : Coll) (es : List Edit),
       (∀ k, aget (applyEdits c es).core k = aget (applyEdits c es).disk k) →
       (applyEdits c es).write st = .ok ([], applyEdits c es, st))
    ∧ versionAt c1Final.2 "config" = versionAt c1First.2 "config" := by
  constructor
  · intro c st es h
    exact write_of_pointwise (fun k => (h k).symm)
  · decide

/-- Witness for C1 on a node whose core and disk coincide. -/
theorem noop_write_stable_witness :
    (applyEdits (⟨"config", [("a", Value.int 1)], [("a", Value.int 1)], 0⟩ : Settings) []).write []
      = .ok ([], applyEdits (⟨"config", [("a", Value.int 1)], [("a", Value.int 1)], 0⟩ : Settings) [], []) :=
  noop_write_stable.1 ⟨"config", [("a", Value.int 1)], [("a", Value.int 1)], 0⟩ [] []
    (fun _ => rfl)

/-- C7: Read is a reset: reading after any sequence of local edits yields
exactly the same result as reading the unedited node, and a successful read
leaves Map equal to the decoded stored payload, which is also the new disk
view. -/
theorem read_resets_node :
    (∀ (c : Settings) (es : List Edit) (st : Coll), (applyEdits c es).read st = c.read st)
    ∧ (∀ (c : Settings) (st : Coll) (n : Settings), c.read st = .ok n →
        (∀ k, aget n.Map k = aget n.disk k)
        ∧ ∀ doc, aget st c.key = some doc → n.Map = unescapeMap doc.payload) := by
  constructor
  · intro c es st
    unfold Settings.read
    rw [applyEdits_key]
  · intro c st n h
    cases hag : aget st c.key
    · simp [Settings.read, hag] at h
    · simp only [Settings.read, hag] at h
      cases h
      refine ⟨fun k => rfl, ?_⟩
      intro doc hdoc
      cases hdoc
      rfl

/-- Witness for C7: a read discarding concrete local edits. -/
theorem read_resets_node_witness :
    (⟨"k", [], [], 0⟩ : Settings).Map = unescapeMap (⟨0, 0, []⟩ : SettingsDoc).payload :=
  (read_resets_node.2 ⟨"k", [("x", Value.int 2)], [("y", Value.int 3)], 5⟩ [("k", ⟨0, 0, []⟩)]
    ⟨"k", [], [], 0⟩ rfl).2 ⟨0, 0, []⟩ rfl

end JujuState

namespace JujuState

/-- Counterexample for C6: with no pending local change, Write on a node
whose document has been removed succeeds with the empty change list instead
of failing NotFound, because an empty diff skips storage entirely. -/
theorem write_after_remove_noop_succeeds :
    aget c6Removed "config" = none ∧ exceptOk (c6Start.1.write c6Removed) = true := by
  decide

/-- C6 (amended): create on an existing key fails with the AlreadyExists
message, Write with a non-empty pending diff on a removed document fails
NotFound, and the two error kinds are distinguishable by the IsNotFound
classifier. -/
theorem create_write_failure_kinds :
    (∀ (st : Coll) (key : String) (values : List (String × Value)),
       (aget st key).isSome = true →
       createSettings st key values = .error (.alreadyExists "cannot overwrite existing settings"))
    ∧ (∀ (c : Settings) (st : Coll),
       aget st c.key = none → settingsDiff c.disk c.core ≠ [] →
       c.write st = .error (.notFound "settings not found"))
    ∧ (∀ m, (SErr.notFound m).isNotFound = true)
    ∧ (∀ m, (SErr.alreadyExists m).isNotFound = false) := by
  refine ⟨?_, ?_, fun m => rfl, fun m => rfl⟩
  · intro st key values h
    unfold createSettings
    rw [if_pos h]
  · intro c st hag hne
    have hemp : (settingsDiff c.disk c.core).isEmpty = false := by
      cases hd : settingsDiff c.disk c.core
      · exact absurd hd hne
      · rfl
    simp [Settings.write, hemp, hag]

/-- Witness for C6 amended: create refused on an occupied key. -/
theorem create_write_failure_kinds_witness :
    createSettings [("config", ⟨0, 0, []⟩)] "config" [] =
      .error (.alreadyExists "cannot overwrite existing settings") :=
  create_write_failure_kinds.1 [("config", ⟨0, 0, []⟩)] "config" [] (by decide)

/-- Counterexample for C2: replaying TestConflictOnSet, both nodes observe
the same revision token, both then issue a Write with a non-empty diff, and
both writes succeed; no Conflict error is surfaced to either. -/
theorem concurrent_writers_both_succeed :
    c2Start.1.txnRevno = c2NodeTwo.txnRevno
    ∧ writeChanges c2Write1 =
        some [⟨.added, "alpha", none, some (.str "beta")⟩,
              ⟨.added, "one", none, some (.int 1)⟩]
    ∧ writeChanges c2Write2 =
        some [⟨.added, "alpha", none, some (.str "beta")⟩,
              ⟨.added, "one", none, some (.int 1)⟩] := by
  decide

/-- C2 (amended): Write asserts only that the document exists, never the
revision token: whenever the document is present the write succeeds, and the
only error Write can return is NotFound, so no Conflict is ever surfaced. -/
theorem write_asserts_existence_only :
    (∀ (c : Settings) (st : Coll), (aget st c.key).isSome = true →
       exceptOk (c.write st) = true)
    ∧ (∀ (c : Settings) (st : Coll) (e : SErr), c.write st = .error e →
       e = .notFound "settings not found") := by
  constructor
  · intro c st h
    by_cases hemp : (settingsDiff c.disk c.core).isEmpty = true
    · simp [Settings.write, hemp, exceptOk]
    · cases hag : aget st c.key
      · rw [hag] at h; simp at h
      · simp [Settings.write, hemp, hag, exceptOk]
  · intro c st e h
    by_cases hemp : (settingsDiff c.disk c.core).isEmpty = true
    · simp [Settings.write, hemp] at h
    · cases hag : aget st c.key
      · simp only [Settings.write, hemp, hag, if_false] at h
        simp at h
        exact h.symm
      · simp [Settings.write, hemp, hag] at h

/-- Witness for C2 amended: a write against an existing document succeeds. -/
theorem write_asserts_existence_only_witness :
    exceptOk ((⟨"k", [], [("a", Value.int 1)], 0⟩ : Settings).write [("k", ⟨0, 0, []⟩)]) = true :=
  write_asserts_existence_only.1 ⟨"k", [], [("a", Value.int 1)], 0⟩ [("k", ⟨0, 0, []⟩)]
    (by decide)

end JujuState

namespace JujuState

theorem unescape_escape {c : Char} (h1 : c ≠ '．') (h2 : c ≠ '＄') :
    unescapeChar (escapeChar c) = c := by
  by_cases hdot : c = '.'
  · subst hdot; rfl
  · by_cases hdollar : c = '$'
    · subst hdollar; rfl
    · simp [escapeChar, unescapeChar, hdot, hdollar, h1, h2]

/-- Counterexample for C3: decode after encode is not the identity on every
key; a key that already holds the fullwidth dollar sign comes back as the
plain dollar sign. -/
theorem escape_roundtrip_counterexample : decodeKey (encodeKey "＄") ≠ "＄" := by decide

/-- C3 (amended): on every key free of the two fullwidth replacement
characters, decode inverts encode; the raw stored form of a marshalled
settingsMap shows the escaped keys while unmarshalling through settingsMap
restores the original keys; escaping leaves all values, including nested
mappings and their keys, untouched; and in the TestSetItemEscape scenario
the stored payload holds the fullwidth keys while a fresh read returns the
original keys. -/
theorem escape_boundary :
    (∀ s : String, (∀ ch ∈ s.data, ch ≠ '．' ∧ ch ≠ '＄') → decodeKey (encodeKey s) = s)
    ∧ (∀ m, rawUnmarshal (settingsMapMarshal m) = escapeMap m)
    ∧ (∀ m : List (String × Value),
        (∀ p ∈ m, ∀ ch ∈ (Prod.fst p).data, ch ≠ '．' ∧ ch ≠ '＄') →
        settingsMapUnmarshal (settingsMapMarshal m) = m)
    ∧ (∀ m, (escapeMap m).map Prod.snd = m.map Prod.snd)
    ∧ (aget c3St "config").map SettingsDoc.payload =
        some [("foo．alpha", .str "beta"), ("＄bar", .int 1)]
    ∧ nodeCore (readSettings c3St "config") =
        some [("foo.alpha", .str "beta"), ("$bar", .int 1)] := by
  refine ⟨?_, fun m => rfl, ?_, ?_, by decide, by decide⟩
  · intro s h
    unfold decodeKey encodeKey
    apply string_ext
    show (s.data.map escapeChar).map unescapeChar = s.data
    rw [List.map_map]
    have : ∀ ch ∈ s.data, (unescapeChar ∘ escapeChar) ch = id ch := by
      intro ch hch
      exact unescape_escape (h ch hch).1 (h ch hch).2
    rw [List.map_congr_left this, List.map_id]
  · intro m h
    unfold settingsMapUnmarshal settingsMapMarshal unescapeMap escapeMap
    rw [List.map_map]
    have : ∀ p ∈ m,
        ((fun q => (decodeKey q.1, q.2)) ∘ (fun q => (encodeKey q.1, q.2))) p = id p := by
      intro p hp
      show (decodeKey (encodeKey p.1), p.2) = p
      have hk : decodeKey (encodeKey p.1) = p.1 := by
        unfold decodeKey encodeKey
        apply string_ext
        show (p.1.data.map escapeChar).map unescapeChar = p.1.data
        rw [List.map_map]
        have h2 : ∀ ch ∈ p.1.data, (unescapeChar ∘ escapeChar) ch = id ch := by
          intro ch hch
          exact unescape_escape (h p hp ch hch).1 (h p hp ch hch).2
        rw [List.map_congr_left h2, List.map_id]
      rw [hk]
    rw [List.map_congr_left this, List.map_id]
  · intro m
    unfold escapeMap
    rw [List.map_map]
    rfl

/-- Witness for C3 amended: the round trip on a dotted key. -/
theorem escape_boundary_witness : decodeKey (encodeKey "foo.alpha") = "foo.alpha" :=
  escape_boundary.1 "foo.alpha" (by decide)

end JujuState

namespace JujuState

/-- C4: the change list of a flush holds exactly one entry per differing key,
Added with nil old value for keys only in the after view, Deleted with nil
new value for keys only in the before view, Modified for keys in both with
deeply unequal values and nothing for equal values, and it is sorted
strictly ascending by key, so each key appears at most once. -/
theorem settingsDiff_spec (before after : List (String × Value)) :
    (settingsDiff before after).Pairwise (fun x y => strLt x.key y.key = true)
    ∧ (∀ ch : ItemChange, ch ∈ settingsDiff before after ↔
        ((∃ n, aget before ch.key = none ∧ aget after ch.key = some n ∧
            ch = ⟨.added, ch.key, none, some n⟩)
         ∨ (∃ o, aget before ch.key = some o ∧ aget after ch.key = none ∧
            ch = ⟨.deleted, ch.key, some o, none⟩)
         ∨ (∃ o n, aget before ch.key = some o ∧ aget after ch.key = some n ∧ o ≠ n ∧
            ch = ⟨.modified, ch.key, some o, some n⟩)))
    ∧ (∀ k, aget before k ≠ aget after k →
        ∃ ch ∈ settingsDiff before after, ch.key = k) := by
  refine ⟨pairwise_settingsDiff before after, ?_, ?_⟩
  · intro ch
    rw [mem_settingsDiff]
    cases hb : aget before ch.key <;> cases ha : aget after ch.key
    · simp [changeFor, hb, ha]
    · rename_i n
      simp only [changeFor, hb, ha, Option.some.injEq]
      constructor
      · intro h
        exact Or.inl ⟨n, trivial, rfl, h.symm⟩
      · rintro (⟨n2, _, hn2, hch⟩ | ⟨o, ho, _, _⟩ | ⟨o, n2, ho, _, _, _⟩)
        · cases hn2
          exact hch.symm
        · exact absurd ho (by simp)
        · exact absurd ho (by simp)
    · rename_i o
      simp only [changeFor, hb, ha, Option.some.injEq]
      constructor
      · intro h
        exact Or.inr (Or.inl ⟨o, rfl, trivial, h.symm⟩)
      · rintro (⟨n2, hn2, _, _⟩ | ⟨o2, ho2, _, hch⟩ | ⟨o2, n2, _, hn2, _, _⟩)
        · exact absurd hn2 (by simp)
        · cases ho2
          exact hch.symm
        · exact absurd hn2 (by simp)
    · rename_i o n
      by_cases hon : o = n
      · subst hon
        simp only [changeFor, hb, ha, if_pos rfl]
        constructor
        · intro h
          exact absurd h (by simp)
        · rintro (⟨n2, hn2, _, _⟩ | ⟨o2, _, ho2, _⟩ | ⟨o2, n2, ho2, hn2, hne, _⟩)
          · exact absurd hn2 (by simp)
          · exact absurd ho2 (by simp)
          · cases ho2
            cases hn2
            exact absurd rfl hne
      · simp only [changeFor, hb, ha, if_neg hon, Option.some.injEq]
        constructor
        · intro h
          exact Or.inr (Or.inr ⟨o, n, rfl, rfl, hon, h.symm⟩)
        · rintro (⟨n2, hn2, _, _⟩ | ⟨o2, _, ho2, _⟩ | ⟨o2, n2, ho2, hn2, _, hch⟩)
          · exact absurd hn2 (by simp)
          · exact absurd ho2 (by simp)
          · cases ho2
            cases hn2
            exact hch.symm
  · intro k hne
    cases hb : aget before k <;> cases ha : aget after k
    · rw [hb, ha] at hne
      exact absurd rfl hne
    · rename_i n
      refine ⟨⟨.added, k, none, some n⟩, mem_settingsDiff.mpr ?_, rfl⟩
      simp [changeFor, hb, ha]
    · rename_i o
      refine ⟨⟨.deleted, k, some o, none⟩, mem_settingsDiff.mpr ?_, rfl⟩
      simp [changeFor, hb, ha]
    · rename_i o n
      have hon : o ≠ n := by
        intro he
        rw [hb, ha, he] at hne
        exact hne rfl
      refine ⟨⟨.modified, k, some o, some n⟩, mem_settingsDiff.mpr ?_, rfl⟩
      simp [changeFor, hb, ha, hon]

/-- Witness for C4: the diff of a concrete deletion has an entry for the
removed key. -/
theorem settingsDiff_spec_witness :
    ∃ ch ∈ settingsDiff [("a", Value.int 1)] [], ch.key = "a" :=
  (settingsDiff_spec [("a", Value.int 1)] []).2.2 "a" (by decide)

/-- C8: listSettings returns exactly the documents whose id begins with the
prefix, with the ids verbatim as keys and the payload keys already decoded;
the prefix test coincides with the existence of a completing suffix. -/
theorem listSettings_spec :
    (∀ (p s : List Char), listPrefixOf p s = true ↔ ∃ t, p ++ t = s)
    ∧ (∀ (st : Coll) (pfx k : String) (m : List (String × Value)),
        ((k, m) ∈ listSettings st pfx ↔
          listPrefixOf pfx.data k.data = true ∧
            ∃ doc, (k, doc) ∈ st ∧ m = unescapeMap doc.payload)) := by
  constructor
  · intro p
    induction p with
    | nil =>
        intro s
        simp [listPrefixOf]
    | cons a as ih =>
        intro s
        cases s with
        | nil => simp [listPrefixOf]
        | cons b bs =>
            simp only [listPrefixOf, Bool.and_eq_true, beq_iff_eq, List.cons_append,
              List.cons.injEq, ih bs]
            constructor
            · rintro ⟨rfl, t, ht⟩
              exact ⟨t, rfl, ht⟩
            · rintro ⟨t, rfl, ht⟩
              exact ⟨rfl, t, ht⟩
  · intro st pfx k m
    unfold listSettings
    rw [List.mem_filterMap]
    constructor
    · rintro ⟨⟨k2, doc⟩, hmem, hf⟩
      by_cases hp : listPrefixOf pfx.data k2.data = true
      · rw [if_pos hp] at hf
        cases hf
        exact ⟨hp, doc, hmem, rfl⟩
      · rw [if_neg hp] at hf
        cases hf
    · rintro ⟨hp, doc, hmem, rfl⟩
      refine ⟨(k, doc), hmem, ?_⟩
      rw [if_pos hp]

/-- Witness for C8: a concrete id carrying the prefix is listed with its
decoded payload. -/
theorem listSettings_spec_witness :
    ("key#1", [("foo1", Value.str "bar1")]) ∈ listSettings c8St "key#" :=
  (listSettings_spec.2 c8St "key#" "key#1" [("foo1", Value.str "bar1")]).mpr
    ⟨by decide, ⟨0, 0, [("foo1", Value.str "bar1")]⟩, by decide, by decide⟩

end JujuState
